import Mathlib

/-!
Shallow embedding of `src/app.py` (a Streamlit demo of Reed–Solomon
encoding ideas), together with theorems settling the specification
claims about it.

The script has three independent sections:
* Section 1 computes the Singleton-bound distance `d = n - k + 1` from
  the bounded numeric inputs `n` and `k`.
* Section 2 parses a comma-separated list of integers, renders the
  message polynomial, and evaluates it at the points `1 .. len+2`.
* Section 3 builds a fixed-pattern quantum circuit (Hadamard on every
  qubit, a CX chain, a full measurement) and runs it on an external
  simulator for 1024 shots.
-/

namespace RSApp

/-! ### Section 1: distance calculator (`d = n - k + 1`, app.py line 46) -/

def dOf (n k : Int) : Int := n - k + 1

/-! ### Section 2: parsing
`message = [int(x.strip()) for x in msg.split(",")]` (app.py line 72).
Python's `str.split(",")` splits on every comma and keeps empty pieces;
`"".split(",") == [""]`.  We model it by structural recursion on the
character list. -/

def splitOnComma : List Char → List (List Char)
  | [] => [[]]
  | c :: rest =>
    match splitOnComma rest with
    | [] => [[]]
    | t :: ts => if c = ',' then [] :: t :: ts else (c :: t) :: ts

/-- Python `str.strip` whitespace characters. -/
def isPySpace (c : Char) : Bool :=
  c = ' ' || c = '\t' || c = '\n' || c = '\r' || c = '\x0b' || c = '\x0c'

/-- Python `str.strip()`: drop leading and trailing whitespace. -/
def pyStrip (cs : List Char) : List Char :=
  ((cs.dropWhile isPySpace).reverse.dropWhile isPySpace).reverse

/-- Digit tail of Python's decimal integer grammar: digits with single
underscores allowed between digits. -/
def pyDigitsRest : List Char → Bool
  | [] => true
  | '_' :: rest =>
    match rest with
    | [] => false
    | c :: r => c.isDigit && pyDigitsRest r
  | c :: rest => c.isDigit && pyDigitsRest rest

/-- Python decimal digit part: at least one digit, underscores only
between digits. -/
def pyDigits : List Char → Bool
  | [] => false
  | c :: rest => c.isDigit && pyDigitsRest rest

/-- Numeric value of a digit part (underscores are separators). -/
def digitsVal (cs : List Char) : Nat :=
  (cs.filter (fun c => c ≠ '_')).foldl (fun acc c => 10 * acc + (c.toNat - '0'.toNat)) 0

/-- Python `int(token)` on an already-stripped token: optional sign, then
a decimal digit part; anything else raises `ValueError`. -/
def pyInt (cs : List Char) : Option Int :=
  match cs with
  | '+' :: rest => if pyDigits rest then some (digitsVal rest : Int) else none
  | '-' :: rest => if pyDigits rest then some (-(digitsVal rest : Int)) else none
  | _ => if pyDigits cs then some (digitsVal cs : Int) else none

/-- The list comprehension `[int(x.strip()) for x in tokens]`: the first
token that fails to parse aborts the whole comprehension. -/
def parseTokens : List (List Char) → Option (List Int)
  | [] => some []
  | t :: rest =>
    match pyInt (pyStrip t) with
    | none => none
    | some v =>
      match parseTokens rest with
      | none => none
      | some vs => some (v :: vs)

def parseMessage (msg : String) : Option (List Int) :=
  parseTokens (splitOnComma msg.data)

/-! ### Section 2: polynomial rendering and codeword
(app.py lines 76–84). -/

/-- `" + ".join([f"{message[i]}x^{i}" for i in range(len(message))])`. -/
def polyStr (message : List Int) : String :=
  String.intercalate " + "
    ((List.range message.length).map
      (fun i => toString (message.getD i 0) ++ "x^" ++ toString i))

/-- `eval_points = list(range(1, len(message) + 3))`. -/
def evalPoints (message : List Int) : List Int :=
  (List.range' 1 (message.length + 2)).map Int.ofNat

/-- `val = sum(message[i] * (x ** i) for i in range(len(message)))`. -/
def polyVal (message : List Int) (x : Int) : Int :=
  ((List.range message.length).map (fun i => message.getD i 0 * x ^ i)).sum

/-- The `for x in eval_points: codeword.append(val)` loop. -/
def codeword (message : List Int) : List Int :=
  (evalPoints message).map (polyVal message)

/-- Observable outcome of Section 2: either the rendered polynomial,
evaluation points and codeword, or the single error banner from the
`except:` branch. -/
inductive Section2Output where
  | success (polyStr : String) (evalPoints codeword : List Int)
  | failure (errorMsg : String)
deriving DecidableEq, Repr

/-- The whole `try/except` block of Section 2 (app.py lines 71–90). -/
def section2 (msg : String) : Section2Output :=
  match parseMessage msg with
  | some message => .success (polyStr message) (evalPoints message) (codeword message)
  | none => .failure "Please enter valid integers."

/-! ### Helper lemmas -/

theorem sum_map_range {M : Type} [AddCommMonoid M] (f : Nat → M) (n : Nat) :
    ((List.range n).map f).sum = ∑ i in Finset.range n, f i := by
  induction n with
  | zero => simp
  | succ n ih =>
    rw [List.range_succ, List.map_append, List.sum_append, Finset.sum_range_succ, ih]
    simp

theorem evalPoints_eq (message : List Int) :
    evalPoints message = (List.range (message.length + 2)).map (fun (j : Nat) => (j : Int) + 1) := by
  unfold evalPoints
  rw [List.range'_eq_map_range, List.map_map]
  apply List.map_congr_left
  intro j _
  simp [Int.ofNat_eq_coe]
  omega

theorem getD_map_range {α : Type} (f : Nat → α) (n j : Nat) (hj : j < n) (d : α) :
    ((List.range n).map f).getD j d = f j := by
  have h' : j < ((List.range n).map f).length := by simpa using hj
  rw [List.getD_eq_getElem _ _ h', List.getElem_map, List.getElem_range]

/-! ### Claim theorems for Sections 1 and 2 -/

/-- C2: for every accepted pair (n, k) with n ≥ 2 and 1 ≤ k ≤ n − 1, the
Distance Calculator outputs d = n − k + 1, and this d satisfies d ≥ 1. -/
theorem distance_formula (n k : Int) (hn : 2 ≤ n) (hk1 : 1 ≤ k) (hk2 : k ≤ n - 1) :
    dOf n k = n - k + 1 ∧ 1 ≤ dOf n k := by
  refine ⟨rfl, ?_⟩
  unfold dOf
  omega

/-- Witness for C2 at the default inputs n = 7, k = 3. -/
theorem distance_formula_witness : dOf 7 3 = 7 - 3 + 1 ∧ 1 ≤ dOf 7 3 :=
  distance_formula 7 3 (by decide) (by decide) (by decide)

/-- C3: the evaluation points are exactly the integers 1 .. m+3 in
increasing order; their count is the coefficient count plus 2, and the
codeword has the same length as the evaluation point list. -/
theorem eval_points_shape (message : List Int) (hm : message ≠ []) :
    evalPoints message = (List.range (message.length + 2)).map (fun (j : Nat) => (j : Int) + 1) ∧
    (evalPoints message).length = message.length + 2 ∧
    (codeword message).length = (evalPoints message).length := by
  refine ⟨evalPoints_eq message, ?_, ?_⟩
  · rw [evalPoints_eq]
    simp
  · simp [codeword]

/-- Witness for C3 at the coefficient list [3, 5, 2]. -/
theorem eval_points_shape_witness :
    evalPoints [3, 5, 2] =
      (List.range (([3, 5, 2] : List Int).length + 2)).map (fun (j : Nat) => (j : Int) + 1) ∧
    (evalPoints [3, 5, 2]).length = ([3, 5, 2] : List Int).length + 2 ∧
    (codeword [3, 5, 2]).length = (evalPoints [3, 5, 2]).length :=
  eval_points_shape [3, 5, 2] (by decide)

/-- C1: for every non-empty coefficient list and every index j below
m+3, the j-th evaluation point is x = j+1 ∈ {1,…,m+3} and the j-th
codeword entry is exactly Σ_i a_i·x^i in ℤ (no modular reduction). -/
theorem codeword_entries_exact (message : List Int) (hm : message ≠ [])
    (j : Nat) (hj : j < message.length + 2) :
    (evalPoints message).getD j 0 = (j : Int) + 1 ∧
    (codeword message).getD j 0 =
      ∑ i in Finset.range message.length, message.getD i 0 * ((j : Int) + 1) ^ i := by
  have hpt : (evalPoints message).getD j 0 = (j : Int) + 1 := by
    rw [evalPoints_eq, getD_map_range _ _ _ hj]
  refine ⟨hpt, ?_⟩
  have hlen : j < (evalPoints message).length := by
    rw [evalPoints_eq]
    simpa using hj
  have hlen2 : j < ((evalPoints message).map (polyVal message)).length := by
    simpa using hlen
  rw [codeword, List.getD_eq_getElem _ _ hlen2, List.getElem_map]
  have hx : (evalPoints message)[j] = (j : Int) + 1 := by
    rw [← hpt, List.getD_eq_getElem _ _ hlen]
  rw [hx, polyVal, sum_map_range]

/-- Witness for C1 at message [3, 5, 2] and index j = 1 (point x = 2). -/
theorem codeword_entries_exact_witness :
    (evalPoints [3, 5, 2]).getD 1 0 = (1 : Int) + 1 ∧
    (codeword [3, 5, 2]).getD 1 0 =
      ∑ i in Finset.range ([3, 5, 2] : List Int).length,
        ([3, 5, 2] : List Int).getD i 0 * ((1 : Int) + 1) ^ i :=
  codeword_entries_exact [3, 5, 2] (by decide) 1 (by decide)

/-- C10: the first codeword entry is the sum of all coefficients,
because the first evaluation point is x = 1. -/
theorem first_entry_is_coeff_sum (message : List Int) (hm : message ≠ []) :
    (codeword message).head? = some message.sum := by
  have h1 : evalPoints message = (1 : Int) :: (List.range' 2 (message.length + 1)).map Int.ofNat := by
    unfold evalPoints
    rw [List.range'_succ]
    simp
  have hsum : ∀ l : List Int, ((List.range l.length).map (fun i => l.getD i 0)).sum = l.sum := by
    intro l
    induction l with
    | nil => simp
    | cons a t ih =>
      rw [List.length_cons, List.range_succ_eq_map, List.map_cons, List.map_map, List.sum_cons]
      have hmap : (List.map ((fun i => (a :: t).getD i 0) ∘ fun i => i + 1) (List.range t.length))
          = List.map (fun i => t.getD i 0) (List.range t.length) := by
        apply List.map_congr_left
        intro i _
        simp [Function.comp, List.getD_cons_succ]
      rw [hmap, ih, List.sum_cons, List.getD_cons_zero]
  rw [codeword, h1, List.map_cons, List.head?_cons]
  congr 1
  unfold polyVal
  calc ((List.range message.length).map (fun i => message.getD i 0 * (1 : Int) ^ i)).sum
      = ((List.range message.length).map (fun i => message.getD i 0)).sum := by
        apply congrArg
        apply List.map_congr_left
        intro i _
        simp
    _ = message.sum := hsum message

/-- Witness for C10 at message [3, 5, 2]: head of codeword is 10. -/
theorem first_entry_is_coeff_sum_witness :
    (codeword [3, 5, 2]).head? = some (([3, 5, 2] : List Int).sum) :=
  first_entry_is_coeff_sum [3, 5, 2] (by decide)

/-- C7: parsing "3,5,2" yields coefficients [3,5,2], evaluation points
[1,2,3,4,5], and codeword [10, 21, 36, 55, 78]. -/
theorem example_3_5_2 :
    parseMessage "3,5,2" = some [3, 5, 2] ∧
    evalPoints [3, 5, 2] = [1, 2, 3, 4, 5] ∧
    codeword [3, 5, 2] = [10, 21, 36, 55, 78] := by
  refine ⟨by decide, by decide, by decide⟩

/-! ### Claim C8: symbolic rendering of the polynomial -/

/-- The terms "{a_i}x^{i}" described by the spec, built by direct
recursion over the coefficient list starting at exponent `s`. -/
def specTerms : List Int → Nat → List String
  | [], _ => []
  | a :: rest, i => (toString a ++ "x^" ++ toString i) :: specTerms rest (i + 1)

theorem specTerms_eq (l : List Int) :
    ∀ s : Nat, specTerms l s =
      (List.range l.length).map (fun i => toString (l.getD i 0) ++ "x^" ++ toString (s + i)) := by
  induction l with
  | nil => intro s; simp [specTerms]
  | cons a t ih =>
    intro s
    rw [specTerms, List.length_cons, List.range_succ_eq_map, List.map_cons, List.map_map, ih (s + 1)]
    refine congrArg₂ _ (by simp) ?_
    apply List.map_congr_left
    intro i _
    simp only [Function.comp, List.getD_cons_succ]
    have h2 : s + 1 + i = s + (i + 1) := by omega
    rw [h2]

/-- C8: the displayed polynomial is the terms "{a_i}x^{i}" for
i = 0..m joined by " + ", with the constant term rendered as "a0x^0". -/
theorem poly_rendering (message : List Int) (hm : message ≠ []) :
    polyStr message = String.intercalate " + " (specTerms message 0) ∧
    (∃ a rest, message = a :: rest ∧
      specTerms message 0 = (toString a ++ "x^0") :: specTerms rest 1) := by
  constructor
  · rw [polyStr, specTerms_eq]
    simp
  · match message, hm with
    | a :: rest, _ =>
      refine ⟨a, rest, rfl, ?_⟩
      rw [specTerms, String.append_assoc]
      have h0 : ("x^" : String) ++ toString (0 : Nat) = "x^0" := by decide
      rw [h0]

/-- Witness for C8 at the coefficient list [3, 5, 2]: the rendering is
"3x^0 + 5x^1 + 2x^2". -/
theorem poly_rendering_witness :
    (polyStr [3, 5, 2] = String.intercalate " + " (specTerms [3, 5, 2] 0) ∧
      (∃ a rest, ([3, 5, 2] : List Int) = a :: rest ∧
        specTerms [3, 5, 2] 0 = (toString a ++ "x^0") :: specTerms rest 1)) ∧
    polyStr [3, 5, 2] = "3x^0 + 5x^1 + 2x^2" :=
  ⟨poly_rendering [3, 5, 2] (by decide), by decide⟩

/-! ### Claim C9: determinism and non-interference of Section 2 -/

/-- The current values of all UI inputs of the app. -/
structure AppState where
  n : Int
  k : Int
  msg : String
  numQubits : Nat

/-- Section 2 run against the full input state: it reads only `msg`. -/
def section2OfState (s : AppState) : Section2Output :=
  section2 s.msg

/-- C9: two runs of Section 2 on input states that agree on the message
string produce identical outputs (same polynomial rendering, evaluation
points and codeword), independent of n, k and numQubits. -/
theorem codeword_deterministic (s1 s2 : AppState) (h : s1.msg = s2.msg) :
    section2OfState s1 = section2OfState s2 := by
  unfold section2OfState
  rw [h]

/-- Witness for C9: states differing in n, k and numQubits but sharing
the message "3,5,2" give the same Section 2 output. -/
theorem codeword_deterministic_witness :
    section2OfState ⟨7, 3, "3,5,2", 3⟩ = section2OfState ⟨9, 5, "3,5,2", 5⟩ :=
  codeword_deterministic ⟨7, 3, "3,5,2", 3⟩ ⟨9, 5, "3,5,2", 5⟩ rfl

/-! ### Claim C4: failure on malformed tokens -/

theorem parseTokens_eq_none {ts : List (List Char)}
    (h : ∃ t ∈ ts, pyInt (pyStrip t) = none) : parseTokens ts = none := by
  induction ts with
  | nil => simp at h
  | cons t rest ih =>
    rw [parseTokens]
    rcases h with ⟨u, hu, hnone⟩
    rcases List.mem_cons.mp hu with h1 | h2
    · rw [h1] at hnone
      rw [hnone]
    · rw [ih ⟨u, h2, hnone⟩]
      cases pyInt (pyStrip t) <;> rfl

/-- C4 counterexample: on input "a,b,c" the section fails with the
banner "Please enter valid integers." — which carries a trailing
period, so it is not literally the string "Please enter valid
integers" named by the claim. -/
theorem generic_message_counterexample :
    section2 "a,b,c" = .failure "Please enter valid integers." ∧
    "Please enter valid integers." ≠ "Please enter valid integers" := by
  refine ⟨by decide, by decide⟩

/-- C4 (amended): whenever some comma-separated token of the input does
not strip-and-parse as an integer, Section 2 produces no codeword and
reports only the generic banner "Please enter valid integers.". -/
theorem parse_failure_generic (msg : String)
    (h : ∃ t ∈ splitOnComma msg.data, pyInt (pyStrip t) = none) :
    section2 msg = .failure "Please enter valid integers." := by
  unfold section2 parseMessage
  rw [parseTokens_eq_none h]

/-- Witness for C4 at the input "a,b,c". -/
theorem parse_failure_generic_witness :
    section2 "a,b,c" = .failure "Please enter valid integers." :=
  parse_failure_generic "a,b,c" (by decide)

/-! ### Section 3: the quantum circuit (app.py lines 112–122) -/

/-- A gate instruction appended to the circuit. -/
inductive Gate where
  | h (q : Nat)
  | cx (control target : Nat)
  | meas (q c : Nat)
deriving DecidableEq, Repr

/-- A circuit: quantum register width, classical register width, and the
ordered list of appended instructions. -/
structure Circuit where
  numQubits : Nat
  numClbits : Nat
  gates : List Gate
deriving DecidableEq, Repr

/-- `QuantumCircuit(num_qubits, num_qubits)` followed by the `qc.h(i)`
loop, the `qc.cx(i, i+1)` loop, and
`qc.measure(range(num_qubits), range(num_qubits))`. -/
def buildCircuit (numQubits : Nat) : Circuit :=
  { numQubits := numQubits
    numClbits := numQubits
    gates :=
      ((List.range numQubits).map Gate.h) ++
      ((List.range (numQubits - 1)).map (fun i => Gate.cx i (i + 1))) ++
      ((List.range numQubits).map (fun i => Gate.meas i i)) }

theorem getD_append_left {α : Type} (l₁ l₂ : List α) (j : Nat) (h : j < l₁.length) (d : α) :
    (l₁ ++ l₂).getD j d = l₁.getD j d := by
  have h' : j < (l₁ ++ l₂).length := by simp; omega
  rw [List.getD_eq_getElem _ _ h', List.getD_eq_getElem _ _ h, List.getElem_append_left]

theorem getD_append_right_off {α : Type} (l₁ l₂ : List α) (j : Nat) (h : j < l₂.length) (d : α) :
    (l₁ ++ l₂).getD (l₁.length + j) d = l₂.getD j d := by
  have h' : l₁.length + j < (l₁ ++ l₂).length := by simp; omega
  rw [List.getD_eq_getElem _ _ h', List.getD_eq_getElem _ _ h]
  rw [List.getElem_append_right (by omega)]
  congr 1
  omega

/-- C5: for every numQubits in [2,5] the circuit has numQubits quantum
and classical bits and its instruction list is exactly: a Hadamard on
each qubit 0..n−1 in ascending order, then CX with control i and target
i+1 for i = 0..n−2 ascending, then a measurement of each qubit i into
classical bit i; nothing else (the length accounts for every gate). -/
theorem circuit_structure (n : Nat) (h2 : 2 ≤ n) (h5 : n ≤ 5) :
    (buildCircuit n).numQubits = n ∧
    (buildCircuit n).numClbits = n ∧
    (buildCircuit n).gates.length = n + (n - 1) + n ∧
    (∀ j, j < n → (buildCircuit n).gates.getD j (Gate.h 0) = Gate.h j) ∧
    (∀ j, j < n - 1 → (buildCircuit n).gates.getD (n + j) (Gate.h 0) = Gate.cx j (j + 1)) ∧
    (∀ j, j < n → (buildCircuit n).gates.getD (n + (n - 1) + j) (Gate.h 0) = Gate.meas j j) := by
  refine ⟨rfl, rfl, by simp [buildCircuit]; omega, ?_, ?_, ?_⟩
  · intro j hj
    unfold buildCircuit
    rw [List.append_assoc]
    rw [getD_append_left _ _ _ (by simpa using hj) _]
    exact getD_map_range _ _ _ hj _
  · intro j hj
    unfold buildCircuit
    rw [List.append_assoc]
    have hn : n = ((List.range n).map Gate.h).length := by simp
    rw [show n + j = ((List.range n).map Gate.h).length + j by simp]
    rw [getD_append_right_off _ _ _ (by simp; omega) _]
    rw [getD_append_left _ _ _ (by simpa using hj) _]
    exact getD_map_range _ _ _ hj _
  · intro j hj
    unfold buildCircuit
    rw [List.append_assoc]
    rw [show n + (n - 1) + j
        = ((List.range n).map Gate.h).length
          + (((List.range (n - 1)).map (fun i => Gate.cx i (i + 1))).length + j) by simp; omega]
    rw [getD_append_right_off _ _ _ (by simp; omega) _]
    rw [getD_append_right_off _ _ _ (by simpa using hj) _]
    exact getD_map_range _ _ _ hj _

/-- Witness for C5 at numQubits = 3. -/
theorem circuit_structure_witness :
    (buildCircuit 3).numQubits = 3 ∧
    (buildCircuit 3).numClbits = 3 ∧
    (buildCircuit 3).gates.length = 3 + (3 - 1) + 3 ∧
    (∀ j, j < 3 → (buildCircuit 3).gates.getD j (Gate.h 0) = Gate.h j) ∧
    (∀ j, j < 3 - 1 → (buildCircuit 3).gates.getD (3 + j) (Gate.h 0) = Gate.cx j (j + 1)) ∧
    (∀ j, j < 3 → (buildCircuit 3).gates.getD (3 + (3 - 1) + j) (Gate.h 0) = Gate.meas j j) :=
  circuit_structure 3 (by decide) (by decide)

/-! ### Claim C6: shape of the measurement counts

Modelled from the spec: the simulation backend (`AerSimulator`,
`backend.run(qc, shots=1024)`, `result.get_counts()`) is an external
collaborator whose code is not part of this repository.  Per the spec,
each shot measures all `numQubits` qubits, so one shot yields one
bitstring of length `numQubits`, and `get_counts` tallies the 1024
observed bitstrings. -/

/-- Modelled from the spec: the bitstring key for measured value `v` on
an `n`-bit classical register. -/
def toBitstring (n v : Nat) : String :=
  String.mk ((List.range n).map (fun j => if v / 2 ^ (n - 1 - j) % 2 = 1 then '1' else '0'))

/-- Modelled from the spec: `result.get_counts()` as the tally of the
per-shot measured values (`outcomes`), keyed by bitstring; keys with
zero occurrences are absent. -/
def getCounts (n : Nat) (outcomes : List Nat) : List (String × Nat) :=
  ((List.range (2 ^ n)).map (fun v => (toBitstring n v, outcomes.count v))).filter
    (fun p => p.2 ≠ 0)

theorem sum_filter_ne_zero (l : List (String × Nat)) :
    ((l.filter (fun p => p.2 ≠ 0)).map (fun p => p.2)).sum = (l.map (fun p => p.2)).sum := by
  induction l with
  | nil => rfl
  | cons p rest ih =>
    rw [List.filter_cons, List.map_cons, List.sum_cons]
    by_cases hp : p.2 = 0
    · rw [if_neg (by simp [hp]), ih, hp, Nat.zero_add]
    · rw [if_pos (by simp [hp]), List.map_cons, List.sum_cons, ih]

theorem sum_count_range (N : Nat) (l : List Nat) (hl : ∀ v ∈ l, v < N) :
    ((List.range N).map (fun v => l.count v)).sum = l.length := by
  induction l with
  | nil => simp
  | cons a t ih =>
    have ha : a < N := hl a (List.mem_cons_self a t)
    have ht : ∀ v ∈ t, v < N := fun v hv => hl v (List.mem_cons_of_mem a hv)
    have hsplit : ((List.range N).map (fun v => (a :: t).count v)).sum
        = ((List.range N).map (fun v => t.count v)).sum
          + ((List.range N).map (fun v => if v = a then 1 else 0)).sum := by
      rw [sum_map_range, sum_map_range, sum_map_range, ← Finset.sum_add_distrib]
      apply Finset.sum_congr rfl
      intro v _
      rw [List.count_cons]
      simp only [beq_iff_eq]
      by_cases hva : a = v
      · simp [hva]
      · have hva' : ¬ v = a := fun hc => hva hc.symm
        simp [hva, hva']
    rw [hsplit, ih ht]
    have hone : ((List.range N).map (fun v => if v = a then 1 else 0)).sum = 1 := by
      rw [sum_map_range]
      rw [Finset.sum_ite_eq' (Finset.range N) a (fun _ => 1)]
      simp [Finset.mem_range.mpr ha]
    rw [hone, List.length_cons]

theorem toBitstring_length (n v : Nat) : (toBitstring n v).length = n := by
  simp [toBitstring, String.length]

/-- C6: for numQubits in [2,5] and any list of 1024 per-shot measured
values on the n-bit register, the counts mapping has values summing
exactly to 1024 and every bitstring key has length numQubits. -/
theorem counts_shape (n : Nat) (h2 : 2 ≤ n) (h5 : n ≤ 5)
    (outcomes : List Nat) (hlen : outcomes.length = 1024)
    (hval : ∀ v ∈ outcomes, v < 2 ^ n) :
    ((getCounts n outcomes).map (fun p => p.2)).sum = 1024 ∧
    ∀ p ∈ getCounts n outcomes, p.1.length = n := by
  constructor
  · rw [getCounts, sum_filter_ne_zero, List.map_map]
    have : ((List.range (2 ^ n)).map
        ((fun p : String × Nat => p.2) ∘ fun v => (toBitstring n v, outcomes.count v)))
        = (List.range (2 ^ n)).map (fun v => outcomes.count v) := rfl
    rw [this, sum_count_range _ _ hval, hlen]
  · intro p hp
    have hp' : p ∈ (List.range (2 ^ n)).map (fun v => (toBitstring n v, outcomes.count v)) :=
      List.mem_of_mem_filter hp
    rcases List.mem_map.mp hp' with ⟨v, _, hv⟩
    rw [← hv]
    exact toBitstring_length n v

/-- Witness for C6 at numQubits = 2 with all 1024 shots measuring 0. -/
theorem counts_shape_witness :
    ((getCounts 2 (List.replicate 1024 0)).map (fun p => p.2)).sum = 1024 ∧
    ∀ p ∈ getCounts 2 (List.replicate 1024 0), p.1.length = 2 :=
  counts_shape 2 (by decide) (by decide) (List.replicate 1024 0) (List.length_replicate 1024 0)
    (by
      intro v hv
      rw [List.eq_of_mem_replicate hv]
      decide)

end RSApp
